import Mathlib

/-!
Verification of the exoplanet mass-radius tutorial notebook
(`src/exoplanet/01_line.ipynb`).

The notebook's computational content is embedded shallowly:

* Catalog cell values are IEEE-style floating-point data.  We model a cell
  value as `Fl`: either a finite number (an exact rational) or one of the
  non-finite values `inf`, `neginf`, `nan`, with IEEE comparison and
  addition semantics (any comparison with `nan` is false; `inf + neginf`
  is `nan`; ...).  Rounding of finite arithmetic is not modelled: the
  filter and transform claims are about exact predicates, not about
  floating-point error.
* A catalog row (`Row`) carries the six columns the notebook uses:
  `pl_rade`, `pl_radeerr1`, `pl_radeerr2`, `pl_masse`, `pl_masseerr1`,
  `pl_masseerr2`.
* The pandas boolean-mask selection is embedded column-wise
  (`computeMask`, one pass per `&=` in the source) and applied with
  `applyMask`, mirroring `data[selected]`.
* `np.log10` on a float is finite exactly when its argument is a positive
  finite number; a transform result is therefore an `Option ℝ`, with
  `none` standing for any non-finite float result (`nan`, `inf` or
  `-inf`), all of which propagate through the subsequent subtraction and
  halving.
* Posterior samples are triples of reals; `np.median` and
  `np.percentile` (default linear interpolation) are embedded over
  sorted lists of reals.
-/

/-- A floating-point cell value: a finite (exact) number or a special. -/
inductive Fl where
  | num (q : ℚ)
  | inf
  | neginf
  | nan
deriving DecidableEq, Repr

namespace Fl

/-- IEEE `<` on cell values: comparisons involving `nan` are false. -/
def flt : Fl → Fl → Bool
  | num a, num b => a < b
  | num _, inf => true
  | neginf, num _ => true
  | neginf, inf => true
  | _, _ => false

/-- IEEE `+` on cell values: `nan` propagates, `inf + neginf = nan`. -/
def fadd : Fl → Fl → Fl
  | num a, num b => num (a + b)
  | nan, _ => nan
  | _, nan => nan
  | inf, neginf => nan
  | neginf, inf => nan
  | inf, _ => inf
  | _, inf => inf
  | neginf, _ => neginf
  | _, neginf => neginf

/-- `np.isfinite` on a cell value. -/
def isFinite : Fl → Bool
  | num _ => true
  | _ => false

/-- `np.abs` on a cell value. -/
def fabs : Fl → Fl
  | num q => num |q|
  | inf => inf
  | neginf => inf
  | nan => nan

end Fl

/-- One raw catalog row, restricted to the six columns the notebook reads. -/
structure Row where
  pl_rade : Fl
  pl_radeerr1 : Fl
  pl_radeerr2 : Fl
  pl_masse : Fl
  pl_masseerr1 : Fl
  pl_masseerr2 : Fl
deriving DecidableEq, Repr

open Fl

/-- The finiteness/nonzero check the source applies to each of the six
columns: `np.isfinite(data[column]) & (np.abs(data[column]) > 0)`. -/
def colOk (c : Fl) : Bool := isFinite c && flt (Fl.num 0) (fabs c)

/-- The six column accessors, in the order of the source's `for column in
["pl_rade", "pl_radeerr1", "pl_radeerr2", "pl_masse", "pl_masseerr1",
"pl_masseerr2"]` loop. -/
def columnList : List (Row → Fl) :=
  [Row.pl_rade, Row.pl_radeerr1, Row.pl_radeerr2,
   Row.pl_masse, Row.pl_masseerr1, Row.pl_masseerr2]

/-- Elementwise `&` of two boolean masks (`selected &= ...`). -/
def maskAnd (m1 m2 : List Bool) : List Bool := List.zipWith and m1 m2

/-- The boolean series `selected`, built column-wise exactly as in the
source: radius-range comparison, then the two positivity sums, then one
`&=` per column of the loop. -/
def computeMask (rows : List Row) : List Bool :=
  let s0 := rows.map (fun r => flt (Fl.num 1) r.pl_rade && flt r.pl_rade (Fl.num 4))
  let s1 := maskAnd s0 (rows.map (fun r => flt (Fl.num 0) (fadd r.pl_masse r.pl_masseerr2)))
  let s2 := maskAnd s1 (rows.map (fun r => flt (Fl.num 0) (fadd r.pl_rade r.pl_radeerr2)))
  columnList.foldl (fun s c => maskAnd s (rows.map (fun r => colOk (c r)))) s2

/-- `data[selected]`: keep the rows whose mask entry is true, in order. -/
def applyMask (rows : List Row) (mask : List Bool) : List Row :=
  ((rows.zip mask).filter (fun p => p.2)).map (fun p => p.1)

/-- The whole filtering step: `data = pd.DataFrame(data[selected])`. -/
def filteredData (rows : List Row) : List Row :=
  applyMask rows (computeMask rows)

/-- The per-row reading of the source's `selected` mask (same tests, same
left-to-right association as the column-wise construction). -/
def rowSelected (r : Row) : Bool :=
  ((((((((flt (Fl.num 1) r.pl_rade && flt r.pl_rade (Fl.num 4))
      && flt (Fl.num 0) (fadd r.pl_masse r.pl_masseerr2))
      && flt (Fl.num 0) (fadd r.pl_rade r.pl_radeerr2))
      && colOk r.pl_rade)
      && colOk r.pl_radeerr1)
      && colOk r.pl_radeerr2)
      && colOk r.pl_masse)
      && colOk r.pl_masseerr1)
      && colOk r.pl_masseerr2

lemma maskAnd_map {α : Type} (l : List α) (f g : α → Bool) :
    maskAnd (l.map f) (l.map g) = l.map (fun x => f x && g x) := by
  induction l with
  | nil => rfl
  | cons a t ih => simp [maskAnd, List.zipWith]

lemma computeMask_eq_map (rows : List Row) :
    computeMask rows = rows.map rowSelected := by
  simp only [computeMask, columnList, List.foldl_cons, List.foldl_nil,
    maskAnd_map (f := fun _ => _)]
  rw [maskAnd_map, maskAnd_map, maskAnd_map, maskAnd_map, maskAnd_map,
    maskAnd_map, maskAnd_map, maskAnd_map]
  rfl

lemma applyMask_map_eq_filter (rows : List Row) (f : Row → Bool) :
    applyMask rows (rows.map f) = rows.filter f := by
  induction rows with
  | nil => rfl
  | cons a t ih =>
    by_cases h : f a = true <;>
      simp [applyMask, List.zip, List.filter, h] at ih ⊢ <;> exact ih

/-- The filter is literally `List.filter rowSelected`. -/
lemma filteredData_eq_filter (rows : List Row) :
    filteredData rows = rows.filter rowSelected := by
  rw [filteredData, computeMask_eq_map, applyMask_map_eq_filter]

/-- The spec's reading of the filter contract: all six fields are finite
and nonzero in magnitude, the radius lies strictly between 1 and 4, and
the two value-plus-lower-uncertainty sums are strictly positive. -/
def SpecRetain (r : Row) : Prop :=
  ∃ rad re1 re2 m me1 me2 : ℚ,
    r.pl_rade = Fl.num rad ∧ r.pl_radeerr1 = Fl.num re1 ∧ r.pl_radeerr2 = Fl.num re2 ∧
    r.pl_masse = Fl.num m ∧ r.pl_masseerr1 = Fl.num me1 ∧ r.pl_masseerr2 = Fl.num me2 ∧
    1 < rad ∧ rad < 4 ∧ 0 < m + me2 ∧ 0 < rad + re2 ∧
    rad ≠ 0 ∧ re1 ≠ 0 ∧ re2 ≠ 0 ∧ m ≠ 0 ∧ me1 ≠ 0 ∧ me2 ≠ 0

lemma colOk_iff (c : Fl) : colOk c = true ↔ ∃ q : ℚ, c = Fl.num q ∧ q ≠ 0 := by
  cases c <;> simp [colOk, isFinite, fabs, flt, abs_pos]

lemma rowSelected_iff (r : Row) : rowSelected r = true ↔ SpecRetain r := by
  constructor
  · intro h
    simp only [rowSelected, Bool.and_eq_true] at h
    obtain ⟨⟨⟨⟨⟨⟨⟨⟨⟨h1, h4⟩, hm2⟩, hr2⟩, c1⟩, c2⟩, c3⟩, c4⟩, c5⟩, c6⟩ := h
    rw [colOk_iff] at c1 c2 c3 c4 c5 c6
    obtain ⟨rad, e1, rad0⟩ := c1
    obtain ⟨re1, e2, re10⟩ := c2
    obtain ⟨re2, e3, re20⟩ := c3
    obtain ⟨m, e4, m0⟩ := c4
    obtain ⟨me1, e5, me10⟩ := c5
    obtain ⟨me2, e6, me20⟩ := c6
    rw [e1] at h1 h4 hr2
    rw [e3] at hr2
    rw [e4, e6] at hm2
    simp only [flt, fadd, decide_eq_true_eq] at h1 h4 hm2 hr2
    exact ⟨rad, re1, re2, m, me1, me2, e1, e2, e3, e4, e5, e6,
      h1, h4, hm2, hr2, rad0, re10, re20, m0, me10, me20⟩
  · rintro ⟨rad, re1, re2, m, me1, me2, e1, e2, e3, e4, e5, e6,
      h1, h4, hm2, hr2, rad0, re10, re20, m0, me10, me20⟩
    simp [rowSelected, e1, e2, e3, e4, e5, e6, colOk, isFinite, fabs, flt, fadd,
      abs_pos, h1, h4, hm2, hr2, rad0, re10, re20, m0, me10, me20]

/-- C1: a row appears in the filtered output iff it appears in the input
and satisfies all filter conditions: radius strictly between 1 and 4,
mass plus its lower uncertainty bound strictly positive, radius plus its
lower uncertainty bound strictly positive, and all six numeric fields
finite and nonzero in magnitude. -/
theorem mem_filteredData_iff (rows : List Row) (r : Row) :
    r ∈ filteredData rows ↔ r ∈ rows ∧ SpecRetain r := by
  rw [filteredData_eq_filter, List.mem_filter, rowSelected_iff]

/-- C10: the filter is a pure selection: the output is exactly the
order-preserving subsequence of the input rows satisfying the row
predicate, with each retained row unchanged. -/
theorem filteredData_pure_selection (rows : List Row) :
    filteredData rows = rows.filter rowSelected ∧ (filteredData rows).Sublist rows := by
  refine ⟨filteredData_eq_filter rows, ?_⟩
  rw [filteredData_eq_filter]
  exact List.filter_sublist rows

/-- A row with mass central value -1 that nevertheless passes the filter:
its lower mass-uncertainty bound is +2, so mass + lower bound = 1 > 0. -/
def c4Row : Row :=
  ⟨Fl.num 2, Fl.num 1, Fl.num (-1), Fl.num (-1), Fl.num 1, Fl.num 2⟩

/-- C4 counterexample: the claim "a row whose mass central value equals -1
is excluded regardless of the other fields" is false: `c4Row` has mass -1
and appears in the filtered output. -/
theorem mass_minus_one_retained :
    c4Row.pl_masse = Fl.num (-1) ∧ c4Row ∈ filteredData [c4Row] := by
  have hsel : rowSelected c4Row = true := by
    norm_num [rowSelected, c4Row, colOk, isFinite, fabs, flt, fadd]
  refine ⟨rfl, ?_⟩
  rw [filteredData_eq_filter]
  simp [List.filter_cons, hsel]

/-- C4 amended: every retained row has finite nonzero fields and a
strictly positive radius central value; its mass central value is
strictly positive whenever its lower mass-uncertainty bound is
nonpositive, and in particular a retained row with mass -1 must have a
strictly positive lower mass-uncertainty bound. -/
theorem retained_row_invariant (rows : List Row) (r : Row) (h : r ∈ filteredData rows) :
    ∃ rad re1 re2 m me1 me2 : ℚ,
      r.pl_rade = Fl.num rad ∧ r.pl_radeerr1 = Fl.num re1 ∧ r.pl_radeerr2 = Fl.num re2 ∧
      r.pl_masse = Fl.num m ∧ r.pl_masseerr1 = Fl.num me1 ∧ r.pl_masseerr2 = Fl.num me2 ∧
      0 < rad ∧ rad ≠ 0 ∧ re1 ≠ 0 ∧ re2 ≠ 0 ∧ m ≠ 0 ∧ me1 ≠ 0 ∧ me2 ≠ 0 ∧
      (me2 ≤ 0 → 0 < m) ∧ (m = -1 → 0 < me2) := by
  rw [filteredData_eq_filter, List.mem_filter, rowSelected_iff] at h
  obtain ⟨-, rad, re1, re2, m, me1, me2, e1, e2, e3, e4, e5, e6,
    h1, h4, hm2, hr2, rad0, re10, re20, m0, me10, me20⟩ := h
  refine ⟨rad, re1, re2, m, me1, me2, e1, e2, e3, e4, e5, e6,
    by linarith, rad0, re10, re20, m0, me10, me20, ?_, ?_⟩
  · intro hme2; linarith
  · intro hm; rw [hm] at hm2; linarith

/-- A well-behaved retained row used to witness the invariant. -/
def wRow : Row :=
  ⟨Fl.num 2, Fl.num 1, Fl.num (-1), Fl.num 5, Fl.num 1, Fl.num (-1)⟩

/-- Witness for the amended C4 invariant at a concrete retained row. -/
theorem retained_row_invariant_witness :
    wRow ∈ filteredData [wRow] ∧
    ∃ rad re1 re2 m me1 me2 : ℚ,
      wRow.pl_rade = Fl.num rad ∧ wRow.pl_radeerr1 = Fl.num re1 ∧ wRow.pl_radeerr2 = Fl.num re2 ∧
      wRow.pl_masse = Fl.num m ∧ wRow.pl_masseerr1 = Fl.num me1 ∧ wRow.pl_masseerr2 = Fl.num me2 ∧
      0 < rad ∧ rad ≠ 0 ∧ re1 ≠ 0 ∧ re2 ≠ 0 ∧ m ≠ 0 ∧ me1 ≠ 0 ∧ me2 ≠ 0 ∧
      (me2 ≤ 0 → 0 < m) ∧ (m = -1 → 0 < me2) := by
  have hsel : rowSelected wRow = true := by
    norm_num [rowSelected, wRow, colOk, isFinite, fabs, flt, fadd]
  have hmem : wRow ∈ filteredData [wRow] := by
    rw [filteredData_eq_filter]
    simp [List.filter_cons, hsel]
  exact ⟨hmem, retained_row_invariant [wRow] wRow hmem⟩

/-- `np.log10` on a cell value: finite exactly on positive finite
arguments; `log10` of zero, a negative number, `-inf` or `nan` is
non-finite (`nan` or `-inf`), and `log10(inf) = inf`.  `none` stands for
any non-finite float result. -/
noncomputable def flog10 : Fl → Option ℝ
  | Fl.num q => if 0 < q then some (Real.logb 10 (q : ℝ)) else none
  | _ => none

/-- `0.5 * (a - b)`; non-finite on either side propagates (a float
subtraction yields a finite result only from two finite operands). -/
def halfDiff : Option ℝ → Option ℝ → Option ℝ
  | some a, some b => some (0.5 * (a - b))
  | _, _ => none

/-- `log_radius = np.log10(np.array(data.pl_rade))`, per row. -/
noncomputable def log_radius (r : Row) : Option ℝ := flog10 r.pl_rade

/-- `log_radius_err = 0.5 * (np.log10(pl_rade+pl_radeerr1) -
np.log10(pl_rade+pl_radeerr2))`, per row. -/
noncomputable def log_radius_err (r : Row) : Option ℝ :=
  halfDiff (flog10 (fadd r.pl_rade r.pl_radeerr1)) (flog10 (fadd r.pl_rade r.pl_radeerr2))

/-- `log_mass = np.log10(np.array(data.pl_masse))`, per row. -/
noncomputable def log_mass (r : Row) : Option ℝ := flog10 r.pl_masse

/-- `log_mass_err = 0.5 * (np.log10(pl_masse+pl_masseerr1) -
np.log10(pl_masse+pl_masseerr2))`, per row. -/
noncomputable def log_mass_err (r : Row) : Option ℝ :=
  halfDiff (flog10 (fadd r.pl_masse r.pl_masseerr1)) (flog10 (fadd r.pl_masse r.pl_masseerr2))

/-- C3: on a row with finite fields whose central values and
value-plus-uncertainty sums are positive, the transform computes log10 of
the central radius and mass, and the symmetrized log-space uncertainty
0.5*(log10(value+upper) - log10(value+lower)) for both. -/
theorem log_transform_formula (r : Row) (rad re1 re2 m me1 me2 : ℚ)
    (e1 : r.pl_rade = Fl.num rad) (e2 : r.pl_radeerr1 = Fl.num re1)
    (e3 : r.pl_radeerr2 = Fl.num re2) (e4 : r.pl_masse = Fl.num m)
    (e5 : r.pl_masseerr1 = Fl.num me1) (e6 : r.pl_masseerr2 = Fl.num me2)
    (hrad : 0 < rad) (hru : 0 < rad + re1) (hrl : 0 < rad + re2)
    (hm : 0 < m) (hmu : 0 < m + me1) (hml : 0 < m + me2) :
    log_radius r = some (Real.logb 10 (rad : ℝ)) ∧
    log_radius_err r =
      some (0.5 * (Real.logb 10 ((rad + re1 : ℚ) : ℝ) - Real.logb 10 ((rad + re2 : ℚ) : ℝ))) ∧
    log_mass r = some (Real.logb 10 (m : ℝ)) ∧
    log_mass_err r =
      some (0.5 * (Real.logb 10 ((m + me1 : ℚ) : ℝ) - Real.logb 10 ((m + me2 : ℚ) : ℝ))) := by
  refine ⟨?_, ?_, ?_, ?_⟩ <;>
    simp [log_radius, log_radius_err, log_mass, log_mass_err, e1, e2, e3, e4, e5, e6,
      flog10, fadd, halfDiff, hrad, hru, hrl, hm, hmu, hml]

/-- The spec's scenario row: radius 2.0 with uncertainties +0.2 and
-0.2 (and a positive, well-behaved mass part). -/
def sRow : Row :=
  ⟨Fl.num 2, Fl.num (1/5), Fl.num (-1/5), Fl.num 3, Fl.num 1, Fl.num (-1)⟩

/-- Witness for C3 at the spec's scenario: radius 2.0, upper 0.2, lower
-0.2 gives symmetrized log-radius error 0.5*(log10(2.2) - log10(1.8)). -/
theorem log_transform_formula_witness :
    ((0:ℚ) < 2 ∧ (0:ℚ) < 2 + 1/5 ∧ (0:ℚ) < 2 + (-1/5) ∧
     (0:ℚ) < 3 ∧ (0:ℚ) < 3 + 1 ∧ (0:ℚ) < 3 + (-1)) ∧
    log_radius sRow = some (Real.logb 10 (2 : ℝ)) ∧
    log_radius_err sRow = some (0.5 * (Real.logb 10 (2.2 : ℝ) - Real.logb 10 (1.8 : ℝ))) := by
  have h := log_transform_formula sRow 2 (1/5) (-1/5) 3 1 (-1) rfl rfl rfl rfl rfl rfl
    (by norm_num) (by norm_num) (by norm_num) (by norm_num) (by norm_num) (by norm_num)
  refine ⟨by norm_num, h.1, ?_⟩
  have h2 := h.2.1
  norm_num at h2 ⊢
  convert h2 using 4

/-- C7: the log-transform is strictly monotonic: two retained rows whose
radius central values satisfy r1 < r2 get log-radius values with
log10(r1) < log10(r2). -/
theorem log_radius_strictMono (r1 r2 : Row) (q1 q2 : ℚ)
    (hs1 : rowSelected r1 = true) (hs2 : rowSelected r2 = true)
    (e1 : r1.pl_rade = Fl.num q1) (e2 : r2.pl_rade = Fl.num q2) (hlt : q1 < q2) :
    log_radius r1 = some (Real.logb 10 (q1 : ℝ)) ∧
    log_radius r2 = some (Real.logb 10 (q2 : ℝ)) ∧
    Real.logb 10 (q1 : ℝ) < Real.logb 10 (q2 : ℝ) := by
  rw [rowSelected_iff] at hs1 hs2
  obtain ⟨rad1, -, -, -, -, -, f1, -, -, -, -, -, h11, -⟩ := hs1
  obtain ⟨rad2, -, -, -, -, -, f2, -, -, -, -, -, h21, -⟩ := hs2
  rw [e1] at f1
  rw [e2] at f2
  have g1 : rad1 = q1 := Fl.num.inj f1.symm
  have g2 : rad2 = q2 := Fl.num.inj f2.symm
  rw [g1] at h11
  rw [g2] at h21
  have hq1 : (0:ℝ) < (q1 : ℝ) := by exact_mod_cast lt_trans zero_lt_one h11
  refine ⟨?_, ?_, ?_⟩
  · simp [log_radius, e1, flog10, lt_trans zero_lt_one h11]
  · simp [log_radius, e2, flog10, lt_trans zero_lt_one h21]
  · exact Real.logb_lt_logb (by norm_num) hq1 (by exact_mod_cast hlt)

/-- A second retained row, with radius 3, for the C7 witness. -/
def wRow2 : Row :=
  ⟨Fl.num 3, Fl.num 1, Fl.num (-1), Fl.num 5, Fl.num 1, Fl.num (-1)⟩

/-- Witness for C7 on two concrete retained rows with radii 2 < 3. -/
theorem log_radius_strictMono_witness :
    (rowSelected wRow = true ∧ rowSelected wRow2 = true ∧ (2:ℚ) < 3) ∧
    log_radius wRow = some (Real.logb 10 ((2:ℚ) : ℝ)) ∧
    log_radius wRow2 = some (Real.logb 10 ((3:ℚ) : ℝ)) ∧
    Real.logb 10 ((2:ℚ) : ℝ) < Real.logb 10 ((3:ℚ) : ℝ) := by
  have hs1 : rowSelected wRow = true := by
    norm_num [rowSelected, wRow, colOk, isFinite, fabs, flt, fadd]
  have hs2 : rowSelected wRow2 = true := by
    norm_num [rowSelected, wRow2, colOk, isFinite, fabs, flt, fadd]
  exact ⟨⟨hs1, hs2, by norm_num⟩,
    log_radius_strictMono wRow wRow2 2 3 hs1 hs2 rfl rfl (by norm_num)⟩

/-- A row that passes every filter condition although mass plus its upper
uncertainty is negative: mass 2, upper uncertainty -3. -/
def c9Row : Row :=
  ⟨Fl.num 2, Fl.num 1, Fl.num (-1), Fl.num 2, Fl.num (-3), Fl.num (-1)⟩

/-- C9: the filter does not protect the log-transform's arguments: `c9Row`
is retained (it satisfies every filter condition) yet its symmetrized
log-mass uncertainty applies log10 to the non-positive value
2 + (-3) = -1 and so is non-finite (`none`). -/
theorem filter_allows_nonfinite_log_err :
    c9Row ∈ filteredData [c9Row] ∧ log_mass_err c9Row = none := by
  have hsel : rowSelected c9Row = true := by
    norm_num [rowSelected, c9Row, colOk, isFinite, fabs, flt, fadd]
  refine ⟨?_, ?_⟩
  · rw [filteredData_eq_filter]
    simp [List.filter_cons, hsel]
  · norm_num [log_mass_err, c9Row, halfDiff, flog10, fadd]

/-- One observation fed to the likelihood: `x` the log-radius, `sigma`
the reported log-mass uncertainty, `y` the log-mass. -/
structure ObsN where
  x : ℝ
  sigma : ℝ
  y : ℝ

/-- Modelled from the spec: the notebook's model cell defines the prior
of `A` and leaves `B`, `logS` and the likelihood as a fill-in exercise
("YOUR CODE GOES HERE"); the notebook's own markdown (and spec section
4.3) state the target model.  The declared scalar parameters with the
lower/upper bounds of their uniform priors. -/
def modelPriors : List (String × ℚ × ℚ) :=
  [("A", -5, 5), ("B", -5, 5), ("logS", -5, 5)]

/-- Modelled from the spec: the bounded-uniform prior density stated in
the notebook markdown (1/(hi-lo) strictly inside the bounds, else 0). -/
noncomputable def uniformPdf (lo hi v : ℝ) : ℝ :=
  if lo < v ∧ v < hi then 1 / (hi - lo) else 0

/-- Modelled from the spec: the joint prior density of (A, B, logS) is
the product of the three independent Uniform(-5, 5) densities. -/
noncomputable def jointPriorPdf (A B logS : ℝ) : ℝ :=
  uniformPdf (-5) 5 A * uniformPdf (-5) 5 B * uniformPdf (-5) 5 logS

/-- Log-density of a Normal with mean `mu` and variance `v` at `y`. -/
noncomputable def normalLogPdfVar (y mu v : ℝ) : ℝ :=
  -(1/2) * ((y - mu)^2 / v + Real.log (2 * Real.pi * v))

/-- Modelled from the spec: the notebook markdown's explicit joint
log-likelihood, with Sigma_M = exp(logS):
-(1/2) * sum over n of [ (y_n - A x_n - B)^2 / (Sigma_M^2 + sigma_n^2)
+ log(2 pi (Sigma_M^2 + sigma_n^2)) ]. -/
noncomputable def logLikelihood (A B logS : ℝ) (obs : List ObsN) : ℝ :=
  -(1/2) * (obs.map (fun o =>
      (o.y - A * o.x - B)^2 / (Real.exp logS ^ 2 + o.sigma ^ 2)
      + Real.log (2 * Real.pi * (Real.exp logS ^ 2 + o.sigma ^ 2)))).sum

lemma logLikelihood_cons (A B logS : ℝ) (o : ObsN) (t : List ObsN) :
    logLikelihood A B logS (o :: t) =
      -(1/2) * ((o.y - A * o.x - B)^2 / (Real.exp logS ^ 2 + o.sigma ^ 2)
        + Real.log (2 * Real.pi * (Real.exp logS ^ 2 + o.sigma ^ 2)))
      + logLikelihood A B logS t := by
  simp [logLikelihood, mul_add]

/-- C2: the model declares exactly three scalar parameters A, B and logS,
each with an independent Uniform(-5, 5) prior (their joint prior density
is the product of the three uniform densities), and its joint
log-likelihood is the sum over observations of a Normal log-density for
log-mass with mean A*x_n + B and variance exp(logS)^2 + sigma_n^2. -/
theorem model_declaration :
    (modelPriors.map (fun p => p.1) = ["A", "B", "logS"] ∧
     modelPriors.length = 3 ∧
     ∀ p ∈ modelPriors, p.2 = (-5, 5)) ∧
    (∀ A B logS : ℝ, jointPriorPdf A B logS =
        uniformPdf (-5) 5 A * uniformPdf (-5) 5 B * uniformPdf (-5) 5 logS) ∧
    (∀ A B logS : ℝ, ∀ obs : List ObsN,
      logLikelihood A B logS obs =
        (obs.map (fun o =>
          normalLogPdfVar o.y (A * o.x + B) (Real.exp logS ^ 2 + o.sigma ^ 2))).sum) := by
  refine ⟨⟨rfl, rfl, by decide⟩, fun A B logS => rfl, ?_⟩
  intro A B logS obs
  induction obs with
  | nil => simp [logLikelihood]
  | cons o t ih =>
    rw [logLikelihood_cons, ih, List.map_cons, List.sum_cons]
    congr 1
    rw [normalLogPdfVar]
    ring

/-- Ascending sort of a list of float values (`np.sort`, used inside
`np.median` / `np.percentile`). -/
noncomputable def sortR (l : List ℝ) : List ℝ := List.insertionSort (· ≤ ·) l

lemma sortR_sorted (l : List ℝ) : (sortR l).Sorted (· ≤ ·) :=
  List.sorted_insertionSort _ l

lemma sortR_perm (l : List ℝ) : List.Perm (sortR l) l :=
  List.perm_insertionSort _ l

lemma sortR_length (l : List ℝ) : (sortR l).length = l.length :=
  (sortR_perm l).length_eq

/-- Linear interpolation into a sorted list at fractional index `h`
(numpy's default percentile method): with `i = floor h`, the value is
`s[i] + (h - i) * (s[i+1] - s[i])`; an out-of-range `i+1` contributes
nothing because the fractional part is then zero. -/
noncomputable def interpSorted (s : List ℝ) (h : ℝ) : ℝ :=
  let i : ℕ := (⌊h⌋).toNat
  s.getD i 0 + (h - (i : ℝ)) * (s.getD (i+1) (s.getD i 0) - s.getD i 0)

/-- `np.percentile(l, q)` with the default linear interpolation:
interpolate the sorted data at fractional index `q/100 * (len - 1)`. -/
noncomputable def npPercentile (q : ℝ) (l : List ℝ) : ℝ :=
  interpSorted (sortR l) (q / 100 * ((l.length : ℝ) - 1))

/-- `np.median(l)`: middle element of the sorted data for odd length,
mean of the two middle elements for even length. -/
noncomputable def npMedian (l : List ℝ) : ℝ :=
  if l.length % 2 = 1 then (sortR l).getD (l.length / 2) 0
  else ((sortR l).getD (l.length / 2 - 1) 0 + (sortR l).getD (l.length / 2) 0) / 2

lemma sorted_getD_mono (s : List ℝ) (hs : s.Sorted (· ≤ ·)) {i j : ℕ}
    (hij : i ≤ j) (hj : j < s.length) : s.getD i 0 ≤ s.getD j 0 := by
  have hi : i < s.length := lt_of_le_of_lt hij hj
  rw [s.getD_eq_getElem 0 hi, s.getD_eq_getElem 0 hj]
  have h2 := @List.Sorted.rel_get_of_le ℝ (· ≤ ·) _ s hs ⟨i, hi⟩ ⟨j, hj⟩ hij
  simpa [List.get_eq_getElem] using h2

/-- The number of elements of `l` that are `≤ x`. -/
noncomputable def cntLE (x : ℝ) (l : List ℝ) : ℕ :=
  l.countP (fun y => decide (y ≤ x))

lemma cntLE_le_of_forall₂ (x : ℝ) {a b : List ℝ}
    (h : List.Forall₂ (· ≤ ·) a b) : cntLE x b ≤ cntLE x a := by
  induction h with
  | nil => exact le_refl 0
  | @cons p q ta tb hab htl ih =>
    simp only [cntLE, List.countP_cons] at ih ⊢
    by_cases hb : q ≤ x
    · have ha : p ≤ x := le_trans hab hb
      rw [decide_eq_true hb, decide_eq_true ha]
      simp only [if_true]
      omega
    · rw [decide_eq_false hb]
      simp only [Bool.false_eq_true, if_false]
      omega

lemma cntLE_of_sorted_getD_le (x : ℝ) :
    ∀ s : List ℝ, s.Sorted (· ≤ ·) →
      ∀ i, i < s.length → s.getD i 0 ≤ x → i + 1 ≤ cntLE x s := by
  intro s
  induction s with
  | nil => intro _ i hi; simp at hi
  | cons hd tl ih =>
    intro hsort i hi hle
    rw [List.sorted_cons] at hsort
    obtain ⟨hall, htl⟩ := hsort
    cases i with
    | zero =>
      have hhd : hd ≤ x := by simpa using hle
      simp [cntLE, List.countP_cons, decide_eq_true hhd]
    | succ k =>
      have hk : k < tl.length := by simpa using hi
      have hle2 : tl.getD k 0 ≤ x := by simpa using hle
      have h1 := ih htl k hk hle2
      have hmem : tl.getD k 0 ∈ tl := by
        rw [tl.getD_eq_getElem 0 hk]
        exact List.getElem_mem hk
      have hhd : hd ≤ x := le_trans (hall _ hmem) hle2
      simp only [cntLE, List.countP_cons, decide_eq_true hhd, if_true] at h1 ⊢
      omega

lemma sorted_getD_le_of_cntLE (x : ℝ) :
    ∀ s : List ℝ, s.Sorted (· ≤ ·) →
      ∀ i, i < s.length → i + 1 ≤ cntLE x s → s.getD i 0 ≤ x := by
  intro s
  induction s with
  | nil => intro _ i hi; simp at hi
  | cons hd tl ih =>
    intro hsort i hi hcnt
    rw [List.sorted_cons] at hsort
    obtain ⟨hall, htl⟩ := hsort
    cases i with
    | zero =>
      by_contra hhd
      simp only [List.getD_cons_zero] at hhd
      push_neg at hhd
      have hz : cntLE x (hd :: tl) = 0 := by
        simp only [cntLE, List.countP_eq_zero]
        intro y hy
        rcases List.mem_cons.mp hy with rfl | hmem
        · simp [hhd.not_le]
        · simp [(lt_of_lt_of_le hhd (hall y hmem)).not_le]
      omega
    | succ k =>
      have hk : k < tl.length := by simpa using hi
      have hstep : k + 1 ≤ cntLE x tl := by
        have hsplit : cntLE x (hd :: tl) ≤ cntLE x tl + 1 := by
          by_cases hd2 : hd ≤ x <;>
            simp [cntLE, List.countP_cons, decide_eq_true, decide_eq_false, hd2]
        omega
      simpa using ih htl k hk hstep

/-- Pointwise domination of order statistics: if `a` is pointwise below
`b`, each element of sorted `a` is below the same-index element of
sorted `b`. -/
lemma sortR_getD_dominate {a b : List ℝ} (h : List.Forall₂ (· ≤ ·) a b)
    (i : ℕ) (hi : i < a.length) :
    (sortR a).getD i 0 ≤ (sortR b).getD i 0 := by
  have hlen : a.length = b.length := h.length_eq
  have hia : i < (sortR a).length := by rw [sortR_length]; exact hi
  have hib : i < (sortR b).length := by rw [sortR_length, ← hlen]; exact hi
  have h1 : i + 1 ≤ cntLE ((sortR b).getD i 0) (sortR b) :=
    cntLE_of_sorted_getD_le _ (sortR b) (sortR_sorted b) i hib (le_refl _)
  have h2 : cntLE ((sortR b).getD i 0) (sortR b) = cntLE ((sortR b).getD i 0) b := by
    simpa [cntLE] using (sortR_perm b).countP_eq (fun y => decide (y ≤ (sortR b).getD i 0))
  have h3 : cntLE ((sortR b).getD i 0) b ≤ cntLE ((sortR b).getD i 0) a :=
    cntLE_le_of_forall₂ _ h
  have h4 : cntLE ((sortR b).getD i 0) a = cntLE ((sortR b).getD i 0) (sortR a) := by
    simpa [cntLE] using ((sortR_perm a).countP_eq (fun y => decide (y ≤ (sortR b).getD i 0))).symm
  exact sorted_getD_le_of_cntLE _ (sortR a) (sortR_sorted a) i hia (by omega)

lemma toNat_floor_cast (h : ℝ) (h0 : 0 ≤ h) :
    ((⌊h⌋.toNat : ℕ) : ℝ) = ((⌊h⌋ : ℤ) : ℝ) := by
  have h1 : (⌊h⌋.toNat : ℤ) = ⌊h⌋ := Int.toNat_of_nonneg (Int.floor_nonneg.mpr h0)
  exact_mod_cast h1

lemma toNat_floor_le (h : ℝ) (h0 : 0 ≤ h) : ((⌊h⌋.toNat : ℕ) : ℝ) ≤ h := by
  rw [toNat_floor_cast h h0]
  exact Int.floor_le h

lemma sub_toNat_floor_lt_one (h : ℝ) (h0 : 0 ≤ h) : h - ((⌊h⌋.toNat : ℕ) : ℝ) < 1 := by
  rw [toNat_floor_cast h h0]
  have := Int.lt_floor_add_one h
  linarith

lemma toNat_floor_le_of_le {h : ℝ} {n : ℕ} (hn : 1 ≤ n)
    (hub : h ≤ (n : ℝ) - 1) : ⌊h⌋.toNat ≤ n - 1 := by
  have h1 : ⌊h⌋ ≤ (n : ℤ) - 1 := by
    have h2 : ((n : ℝ) - 1) = (((n : ℤ) - 1 : ℤ) : ℝ) := by push_cast; ring
    have h3 := Int.floor_mono hub
    rwa [h2, Int.floor_intCast] at h3
  omega

lemma interp_slope_nonneg (s : List ℝ) (hs : s.Sorted (· ≤ ·)) (i : ℕ)
    (hi : i < s.length) : 0 ≤ s.getD (i+1) (s.getD i 0) - s.getD i 0 := by
  by_cases hin : i + 1 < s.length
  · have h1 := sorted_getD_mono s hs (Nat.le_succ i) hin
    have e : s.getD (i+1) (s.getD i 0) = s.getD (i+1) 0 := by
      rw [s.getD_eq_getElem _ hin, s.getD_eq_getElem 0 hin]
    rw [e]
    linarith
  · rw [List.getD_eq_default _ _ (by omega)]
    simp

lemma interpSorted_mono_h (s : List ℝ) (hs : s.Sorted (· ≤ ·))
    {h1 h2 : ℝ} (h0 : 0 ≤ h1) (h12 : h1 ≤ h2) (hub : h2 ≤ (s.length : ℝ) - 1) :
    interpSorted s h1 ≤ interpSorted s h2 := by
  have h02 : 0 ≤ h2 := le_trans h0 h12
  have hn : 1 ≤ s.length := by
    rcases Nat.eq_zero_or_pos s.length with hz | hp
    · rw [hz] at hub; norm_num at hub; linarith
    · exact hp
  have i2ub : ⌊h2⌋.toNat ≤ s.length - 1 := toNat_floor_le_of_le hn hub
  have i12 : ⌊h1⌋.toNat ≤ ⌊h2⌋.toNat := by
    have := Int.floor_mono h12
    omega
  have f1nn : 0 ≤ h1 - ((⌊h1⌋.toNat : ℕ) : ℝ) := by
    have := toNat_floor_le h1 h0; linarith
  have f1lt : h1 - ((⌊h1⌋.toNat : ℕ) : ℝ) < 1 := sub_toNat_floor_lt_one h1 h0
  have f2nn : 0 ≤ h2 - ((⌊h2⌋.toNat : ℕ) : ℝ) := by
    have := toNat_floor_le h2 h02; linarith
  simp only [interpSorted]
  rcases eq_or_lt_of_le i12 with heq | hlt
  · rw [heq]
    have slope := interp_slope_nonneg s hs ⌊h2⌋.toNat (by omega)
    have hmul := mul_le_mul_of_nonneg_right
      (sub_le_sub_right h12 ((⌊h2⌋.toNat : ℕ) : ℝ)) slope
    rw [heq] at f1nn
    linarith
  · have hi1in : ⌊h1⌋.toNat + 1 < s.length := by omega
    have hi2in : ⌊h2⌋.toNat < s.length := by omega
    have e1 : s.getD (⌊h1⌋.toNat + 1) (s.getD ⌊h1⌋.toNat 0) = s.getD (⌊h1⌋.toNat + 1) 0 := by
      rw [s.getD_eq_getElem _ hi1in, s.getD_eq_getElem 0 hi1in]
    have hmono1 : s.getD ⌊h1⌋.toNat 0 ≤ s.getD (⌊h1⌋.toNat + 1) 0 :=
      sorted_getD_mono s hs (Nat.le_succ _) hi1in
    have lhs_le : s.getD ⌊h1⌋.toNat 0 +
        (h1 - ((⌊h1⌋.toNat : ℕ) : ℝ)) *
          (s.getD (⌊h1⌋.toNat + 1) (s.getD ⌊h1⌋.toNat 0) - s.getD ⌊h1⌋.toNat 0) ≤
        s.getD (⌊h1⌋.toNat + 1) 0 := by
      rw [e1]
      nlinarith [mul_nonneg (by linarith : (0:ℝ) ≤ 1 - (h1 - ((⌊h1⌋.toNat : ℕ) : ℝ)))
        (by linarith : (0:ℝ) ≤ s.getD (⌊h1⌋.toNat + 1) 0 - s.getD ⌊h1⌋.toNat 0)]
    have mid : s.getD (⌊h1⌋.toNat + 1) 0 ≤ s.getD ⌊h2⌋.toNat 0 :=
      sorted_getD_mono s hs (by omega) hi2in
    have slope2 := interp_slope_nonneg s hs ⌊h2⌋.toNat hi2in
    have rhs_ge : s.getD ⌊h2⌋.toNat 0 ≤ s.getD ⌊h2⌋.toNat 0 +
        (h2 - ((⌊h2⌋.toNat : ℕ) : ℝ)) *
          (s.getD (⌊h2⌋.toNat + 1) (s.getD ⌊h2⌋.toNat 0) - s.getD ⌊h2⌋.toNat 0) := by
      nlinarith [mul_nonneg f2nn slope2]
    linarith

lemma interpSorted_dominate {a b : List ℝ} (h : List.Forall₂ (· ≤ ·) a b)
    {hh : ℝ} (h0 : 0 ≤ hh) (hub : hh ≤ (a.length : ℝ) - 1) :
    interpSorted (sortR a) hh ≤ interpSorted (sortR b) hh := by
  have hlen : a.length = b.length := h.length_eq
  have hn : 1 ≤ a.length := by
    rcases Nat.eq_zero_or_pos a.length with hz | hp
    · rw [hz] at hub; norm_num at hub; linarith
    · exact hp
  have iub : ⌊hh⌋.toNat ≤ a.length - 1 := toNat_floor_le_of_le hn hub
  have hi : ⌊hh⌋.toNat < a.length := by omega
  have fnn : 0 ≤ hh - ((⌊hh⌋.toNat : ℕ) : ℝ) := by
    have := toNat_floor_le hh h0; linarith
  have flt1 : hh - ((⌊hh⌋.toNat : ℕ) : ℝ) < 1 := sub_toNat_floor_lt_one hh h0
  have d1 : (sortR a).getD ⌊hh⌋.toNat 0 ≤ (sortR b).getD ⌊hh⌋.toNat 0 :=
    sortR_getD_dominate h _ hi
  simp only [interpSorted]
  by_cases hin : ⌊hh⌋.toNat + 1 < a.length
  · have d2 : (sortR a).getD (⌊hh⌋.toNat + 1) 0 ≤ (sortR b).getD (⌊hh⌋.toNat + 1) 0 :=
      sortR_getD_dominate h _ hin
    have ea : (sortR a).getD (⌊hh⌋.toNat + 1) ((sortR a).getD ⌊hh⌋.toNat 0) =
        (sortR a).getD (⌊hh⌋.toNat + 1) 0 := by
      have hin2 : ⌊hh⌋.toNat + 1 < (sortR a).length := by rw [sortR_length]; exact hin
      rw [(sortR a).getD_eq_getElem _ hin2, (sortR a).getD_eq_getElem 0 hin2]
    have eb : (sortR b).getD (⌊hh⌋.toNat + 1) ((sortR b).getD ⌊hh⌋.toNat 0) =
        (sortR b).getD (⌊hh⌋.toNat + 1) 0 := by
      have hin2 : ⌊hh⌋.toNat + 1 < (sortR b).length := by
        rw [sortR_length, ← hlen]; exact hin
      rw [(sortR b).getD_eq_getElem _ hin2, (sortR b).getD_eq_getElem 0 hin2]
    rw [ea, eb]
    nlinarith [mul_le_mul_of_nonneg_left d1 (by linarith : (0:ℝ) ≤ 1 - (hh - ((⌊hh⌋.toNat : ℕ) : ℝ))),
      mul_le_mul_of_nonneg_left d2 fnn]
  · have ea : (sortR a).getD (⌊hh⌋.toNat + 1) ((sortR a).getD ⌊hh⌋.toNat 0) =
        (sortR a).getD ⌊hh⌋.toNat 0 :=
      List.getD_eq_default _ _ (by rw [sortR_length]; omega)
    have eb : (sortR b).getD (⌊hh⌋.toNat + 1) ((sortR b).getD ⌊hh⌋.toNat 0) =
        (sortR b).getD ⌊hh⌋.toNat 0 :=
      List.getD_eq_default _ _ (by rw [sortR_length]; omega)
    rw [ea, eb]
    simpa using d1

lemma npMedian_eq_interp (l : List ℝ) (hne : l ≠ []) :
    npMedian l = interpSorted (sortR l) (((l.length : ℝ) - 1) / 2) := by
  have hn : 1 ≤ l.length := List.length_pos.mpr hne
  rcases Nat.even_or_odd l.length with heven | hodd
  · obtain ⟨m, hm⟩ := heven
    have hm2 : l.length = 2 * m := by omega
    have hm1 : 1 ≤ m := by omega
    have hh : ((l.length : ℝ) - 1) / 2 = (m : ℝ) - 1 / 2 := by
      rw [hm2]; push_cast; ring
    have hfloor : ⌊(m : ℝ) - 1 / 2⌋ = (m : ℤ) - 1 := by
      rw [Int.floor_eq_iff]
      constructor <;> push_cast <;> linarith
    have htoNat : ⌊(m : ℝ) - 1 / 2⌋.toNat = m - 1 := by rw [hfloor]; omega
    have hmlt : m < (sortR l).length := by rw [sortR_length]; omega
    have e2 : m - 1 + 1 = m := by omega
    have ed : (sortR l).getD (m - 1 + 1) ((sortR l).getD (m - 1) 0) =
        (sortR l).getD m 0 := by
      rw [e2, (sortR l).getD_eq_getElem _ hmlt, (sortR l).getD_eq_getElem 0 hmlt]
    have ec : (((m - 1 : ℕ)) : ℝ) = (m : ℝ) - 1 := by
      push_cast [hm1]; ring
    rw [npMedian, if_neg (by omega)]
    rw [hh]
    simp only [interpSorted, htoNat, ed, ec]
    have e1 : l.length / 2 = m := by omega
    rw [e1]
    ring
  · obtain ⟨k, hk⟩ := hodd
    have hmod : l.length % 2 = 1 := by omega
    have hh : ((l.length : ℝ) - 1) / 2 = (k : ℝ) := by rw [hk]; push_cast; ring
    have ht2 : ⌊((k : ℕ) : ℝ)⌋.toNat = k := by
      rw [Int.floor_natCast]; omega
    rw [npMedian, if_pos hmod]
    simp only [interpSorted, hh, ht2]
    have e1 : l.length / 2 = k := by omega
    rw [e1]
    ring

/-- One posterior draw of the parameter vector (one row of the trace). -/
structure Sample where
  A : ℝ
  B : ℝ
  logS : ℝ

/-- `lines = trace["A"][:, None] * x_pred[None, :] + trace["B"][:, None]`
evaluated at a single grid point x: one predicted line value per sample. -/
def linesAt (trace : List Sample) (x : ℝ) : List ℝ :=
  trace.map (fun s => s.A * x + s.B)

/-- `mn = lines - np.exp(trace["logS"])[:, None]` at one grid point. -/
noncomputable def mnAt (trace : List Sample) (x : ℝ) : List ℝ :=
  List.zipWith (fun l e => l - e) (linesAt trace x) (trace.map (fun s => Real.exp s.logS))

/-- `mx = lines + np.exp(trace["logS"])[:, None]` at one grid point. -/
noncomputable def mxAt (trace : List Sample) (x : ℝ) : List ℝ :=
  List.zipWith (fun l e => l + e) (linesAt trace x) (trace.map (fun s => Real.exp s.logS))

/-- `mu_pred = np.median(lines, axis=0)` at one grid point. -/
noncomputable def mu_pred (trace : List Sample) (x : ℝ) : ℝ :=
  npMedian (linesAt trace x)

/-- `mn_pred = np.percentile(mn, 16, axis=0)` at one grid point. -/
noncomputable def mn_pred (trace : List Sample) (x : ℝ) : ℝ :=
  npPercentile 16 (mnAt trace x)

/-- `mx_pred = np.percentile(mx, 84, axis=0)` at one grid point. -/
noncomputable def mx_pred (trace : List Sample) (x : ℝ) : ℝ :=
  npPercentile 84 (mxAt trace x)

lemma zipWith_map_same {α β γ : Type} (l : List α) (f g : α → β) (k : β → β → γ) :
    List.zipWith k (l.map f) (l.map g) = l.map (fun a => k (f a) (g a)) := by
  induction l with
  | nil => rfl
  | cons a t ih => simp only [List.map_cons, List.zipWith_cons_cons, ih]

lemma mnAt_eq_map (trace : List Sample) (x : ℝ) :
    mnAt trace x = trace.map (fun s => s.A * x + s.B - Real.exp s.logS) := by
  rw [mnAt, linesAt, zipWith_map_same]

lemma mxAt_eq_map (trace : List Sample) (x : ℝ) :
    mxAt trace x = trace.map (fun s => s.A * x + s.B + Real.exp s.logS) := by
  rw [mxAt, linesAt, zipWith_map_same]

/-- C5: at each grid point x, the per-sample line is A*x + B, the central
prediction is the median over samples of the lines, and the band edges
are the 16th percentile over samples of (line - exp(logS)) and the 84th
percentile over samples of (line + exp(logS)). -/
theorem band_computation (trace : List Sample) (x : ℝ) :
    mu_pred trace x = npMedian (trace.map (fun s => s.A * x + s.B)) ∧
    mn_pred trace x =
      npPercentile 16 (trace.map (fun s => s.A * x + s.B - Real.exp s.logS)) ∧
    mx_pred trace x =
      npPercentile 84 (trace.map (fun s => s.A * x + s.B + Real.exp s.logS)) := by
  refine ⟨rfl, ?_, ?_⟩
  · rw [mn_pred, mnAt_eq_map]
  · rw [mx_pred, mxAt_eq_map]

lemma forall₂_map_le {α : Type} (l : List α) (f g : α → ℝ) (hfg : ∀ a, f a ≤ g a) :
    List.Forall₂ (· ≤ ·) (l.map f) (l.map g) := by
  induction l with
  | nil => exact List.Forall₂.nil
  | cons a t ih => exact List.Forall₂.cons (hfg a) ih

/-- C6: for a non-empty posterior sample collection and any grid point x,
the band edges and the central prediction are ordered:
lower band ≤ median prediction ≤ upper band. -/
theorem band_ordering (trace : List Sample) (x : ℝ) (hne : trace ≠ []) :
    mn_pred trace x ≤ mu_pred trace x ∧ mu_pred trace x ≤ mx_pred trace x := by
  have hn : 1 ≤ trace.length := List.length_pos.mpr hne
  have hnR : (1:ℝ) ≤ (trace.length : ℝ) := by exact_mod_cast hn
  have hn1 : (0:ℝ) ≤ (trace.length : ℝ) - 1 := by linarith
  have hlines_len : (linesAt trace x).length = trace.length := List.length_map _ _
  have hmn_len : (mnAt trace x).length = trace.length := by
    rw [mnAt_eq_map]; exact List.length_map _ _
  have hmx_len : (mxAt trace x).length = trace.length := by
    rw [mxAt_eq_map]; exact List.length_map _ _
  have hlne : linesAt trace x ≠ [] := by
    intro hnil
    rw [hnil] at hlines_len
    simp at hlines_len
    omega
  have hfor_mn : List.Forall₂ (· ≤ ·) (mnAt trace x) (linesAt trace x) := by
    rw [mnAt_eq_map, linesAt]
    refine forall₂_map_le trace _ _ (fun s => ?_)
    have := Real.exp_pos s.logS
    linarith
  have hfor_mx : List.Forall₂ (· ≤ ·) (linesAt trace x) (mxAt trace x) := by
    rw [mxAt_eq_map, linesAt]
    refine forall₂_map_le trace _ _ (fun s => ?_)
    have := Real.exp_pos s.logS
    linarith
  constructor
  · have step1 : npPercentile 16 (mnAt trace x) ≤ npPercentile 16 (linesAt trace x) := by
      rw [npPercentile, npPercentile, hmn_len, hlines_len]
      exact interpSorted_dominate hfor_mn
        (mul_nonneg (by norm_num) hn1) (by rw [hmn_len]; linarith)
    have step2 : npPercentile 16 (linesAt trace x) ≤ npMedian (linesAt trace x) := by
      rw [npMedian_eq_interp _ hlne, npPercentile, hlines_len]
      apply interpSorted_mono_h _ (sortR_sorted _)
      · exact mul_nonneg (by norm_num) hn1
      · linarith
      · rw [sortR_length, hlines_len]; linarith
    exact le_trans step1 step2
  · have step3 : npMedian (linesAt trace x) ≤ npPercentile 84 (linesAt trace x) := by
      rw [npMedian_eq_interp _ hlne, npPercentile, hlines_len]
      apply interpSorted_mono_h _ (sortR_sorted _)
      · linarith
      · linarith
      · rw [sortR_length, hlines_len]; linarith
    have step4 : npPercentile 84 (linesAt trace x) ≤ npPercentile 84 (mxAt trace x) := by
      rw [npPercentile, npPercentile, hmx_len, hlines_len]
      exact interpSorted_dominate hfor_mx
        (mul_nonneg (by norm_num) hn1) (by rw [hlines_len]; linarith)
    exact le_trans step3 step4

/-- Witness for C6 at a concrete one-sample trace and grid point 0. -/
theorem band_ordering_witness :
    ([⟨1, 0, 0⟩] : List Sample) ≠ [] ∧
    (mn_pred [⟨1, 0, 0⟩] 0 ≤ mu_pred [⟨1, 0, 0⟩] 0 ∧
     mu_pred [⟨1, 0, 0⟩] 0 ≤ mx_pred [⟨1, 0, 0⟩] 0) := by
  have hne : ([⟨1, 0, 0⟩] : List Sample) ≠ [] := by simp
  exact ⟨hne, band_ordering [⟨1, 0, 0⟩] 0 hne⟩

/-- The notebook bindings the diagnostics cells read: the posterior
sample collection and the four observation arrays. -/
structure NotebookState where
  trace : List Sample
  log_radius : List ℝ
  log_radius_err : List ℝ
  log_mass : List ℝ
  log_mass_err : List ℝ

/-- The trace-plot data (`pm.traceplot`): each parameter's draws in
chain order. -/
def tracePlotData (trace : List Sample) : List ℝ × List ℝ × List ℝ :=
  (trace.map (fun s => s.A), trace.map (fun s => s.B), trace.map (fun s => s.logS))

/-- The corner-plot data (`pm.trace_to_dataframe` then `corner.corner`):
the list of parameter triples. -/
def cornerData (trace : List Sample) : List (ℝ × ℝ × ℝ) :=
  trace.map (fun s => (s.A, s.B, s.logS))

/-- The per-parameter marginal means, the descriptive reduction behind
`pm.summary`'s table. -/
noncomputable def summaryMeans (trace : List Sample) : ℝ × ℝ × ℝ :=
  ((trace.map (fun s => s.A)).sum / trace.length,
   (trace.map (fun s => s.B)).sum / trace.length,
   (trace.map (fun s => s.logS)).sum / trace.length)

/-- The posterior-predictive band over a grid `xs`: central, lower and
upper values per grid point. -/
noncomputable def bandData (trace : List Sample) (xs : List ℝ) :
    List ℝ × List ℝ × List ℝ :=
  (xs.map (mu_pred trace), xs.map (mn_pred trace), xs.map (mx_pred trace))

/-- The diagnostics cells of the notebook as one state transition: they
read the trace and observation arrays, bind only fresh names (plots,
tables, `x_pred`, `lines`, `mu_pred`, ...), and return the state they
were given. -/
noncomputable def runDiagnostics (st : NotebookState) (xs : List ℝ) :
    ((List ℝ × List ℝ × List ℝ) × (ℝ × ℝ × ℝ) × List (ℝ × ℝ × ℝ) ×
      (List ℝ × List ℝ × List ℝ)) × NotebookState :=
  ((tracePlotData st.trace, summaryMeans st.trace, cornerData st.trace,
    bandData st.trace xs), st)

/-- C8: the diagnostics and posterior-predictive computations are pure
read-only reductions: running them returns the posterior sample
collection and the observation arrays unchanged, and their outputs are
functions of the trace (and grid) alone. -/
theorem diagnostics_read_only (st : NotebookState) (xs : List ℝ) :
    (runDiagnostics st xs).2 = st ∧
    (runDiagnostics st xs).1 =
      (tracePlotData st.trace, summaryMeans st.trace, cornerData st.trace,
       bandData st.trace xs) :=
  ⟨rfl, rfl⟩
